import Mathlib

/-!
Shallow embedding of the ICY (Shoutcast) metadata monitor in `index.py`.

Text is modelled as `List Char`, byte streams as `List Nat` (each entry one
byte, `0..255`).  A blocking read of `n` bytes from the stream is `List.take n`
followed by `List.drop n`: at end of stream it returns fewer bytes than
requested, exactly as `response.raw.read(n)` does.
-/

namespace WebRadio

/-- The code points of every character `str.isspace()` accepts, which is
exactly the set `str.strip()` with no argument removes: the ASCII whitespace
and separator controls `09-0D`, `1C-1F`, `20`, then `85` (next line),
`A0` (no-break space) and the Unicode space and line/paragraph separators. -/
def pySpaceCodes : List Nat :=
  [0x09, 0x0A, 0x0B, 0x0C, 0x0D, 0x1C, 0x1D, 0x1E, 0x1F, 0x20, 0x85, 0xA0,
   0x1680, 0x2000, 0x2001, 0x2002, 0x2003, 0x2004, 0x2005, 0x2006, 0x2007,
   0x2008, 0x2009, 0x200A, 0x2028, 0x2029, 0x202F, 0x205F, 0x3000]

/-- Python `str.strip()` whitespace test (`str.isspace()`). -/
def isPySpace (c : Char) : Bool := pySpaceCodes.contains c.toNat

/-- Remove leading and trailing characters satisfying `p`, as Python `strip`. -/
def stripEnds (p : Char → Bool) (xs : List Char) : List Char :=
  ((xs.dropWhile p).reverse.dropWhile p).reverse

/-- Python `s.strip()` (whitespace at both ends). -/
def pyStrip (xs : List Char) : List Char := stripEnds isPySpace xs

/-- Python `s.strip("\x27")` (quote characters at both ends). -/
def pyStripQuote (xs : List Char) : List Char := stripEnds (fun c => c == '\'') xs

/-- `leadsWith p l` holds when `p` is an initial segment of `l`. -/
def leadsWith : List Char → List Char → Bool
  | [], _ => true
  | _ :: _, [] => false
  | a :: as, b :: bs => a == b && leadsWith as bs

/-- Split `l` at the first occurrence of `sep`: `some (before, after)`, or
`none` when `sep` does not occur.  This is the core of Python `str.split`. -/
def splitFirst (sep : List Char) : List Char → Option (List Char × List Char)
  | [] => none
  | x :: xs =>
    if leadsWith sep (x :: xs) then some ([], (x :: xs).drop sep.length)
    else
      match splitFirst sep xs with
      | some (a, b) => some (x :: a, b)
      | none => none

/-- Python `sep in s` substring test. -/
def containsSub (sep xs : List Char) : Bool := (splitFirst sep xs).isSome

/-- Python `s.split(sep)[0]`: everything before the first occurrence of `sep`
(the whole string when `sep` is absent). -/
def beforeFirst (sep xs : List Char) : List Char :=
  match splitFirst sep xs with
  | some (a, _) => a
  | none => xs

/-- Python `s.split(sep)[1]`: the segment between the first and the second
occurrence of `sep` (up to the end when `sep` occurs only once); `none` when
`sep` does not occur at all. -/
def pySplitSecond (sep xs : List Char) : Option (List Char) :=
  match splitFirst sep xs with
  | none => none
  | some (_, post) => some (beforeFirst sep post)

/-- UTF-8 continuation byte test (`0x80..0xBF`). -/
def contByte (b : Nat) : Bool := 0x80 ≤ b && b < 0xC0

/-- Standard UTF-8 encoding of one scalar value. -/
def utf8EncodeChar (c : Char) : List Nat :=
  if c.toNat < 0x80 then [c.toNat]
  else if c.toNat < 0x800 then [0xC0 + c.toNat / 64, 0x80 + c.toNat % 64]
  else if c.toNat < 0x10000 then
    [0xE0 + c.toNat / 4096, 0x80 + c.toNat / 64 % 64, 0x80 + c.toNat % 64]
  else
    [0xF0 + c.toNat / 262144, 0x80 + c.toNat / 4096 % 64,
     0x80 + c.toNat / 64 % 64, 0x80 + c.toNat % 64]

/-- UTF-8 encoding of a character list. -/
def utf8Encode : List Char → List Nat
  | [] => []
  | c :: cs => utf8EncodeChar c ++ utf8Encode cs

/-- Decode one UTF-8 sequence starting at byte `b` with remaining input `t`.
Returns the decoded character (or `none` when the sequence is invalid and is
dropped, as Python `errors="ignore"` does) and the remaining input. -/
def decodeOne (b : Nat) (t : List Nat) : Option Char × List Nat :=
  if b < 0x80 then (some (Char.ofNat b), t)
  else if b < 0xC2 then (none, t)
  else if b < 0xE0 then
    match t with
    | [] => (none, [])
    | b2 :: t2 =>
      if contByte b2 then (some (Char.ofNat ((b - 0xC0) * 64 + (b2 - 0x80))), t2)
      else (none, t)
  else if b < 0xF0 then
    match t with
    | [] => (none, [])
    | b2 :: t2 =>
      if contByte b2 then
        match t2 with
        | [] => (none, [])
        | b3 :: t3 =>
          if contByte b3 then
            if 0x800 ≤ ((b - 0xE0) * 64 + (b2 - 0x80)) * 64 + (b3 - 0x80) ∧
                (((b - 0xE0) * 64 + (b2 - 0x80)) * 64 + (b3 - 0x80) < 0xD800 ∨
                  0xDFFF < ((b - 0xE0) * 64 + (b2 - 0x80)) * 64 + (b3 - 0x80)) then
              (some (Char.ofNat (((b - 0xE0) * 64 + (b2 - 0x80)) * 64 + (b3 - 0x80))), t3)
            else (none, t)
          else (none, t2)
      else (none, t)
  else if b < 0xF5 then
    match t with
    | [] => (none, [])
    | b2 :: t2 =>
      if contByte b2 then
        match t2 with
        | [] => (none, [])
        | b3 :: t3 =>
          if contByte b3 then
            match t3 with
            | [] => (none, [])
            | b4 :: t4 =>
              if contByte b4 then
                if 0x10000 ≤ (((b - 0xF0) * 64 + (b2 - 0x80)) * 64 + (b3 - 0x80)) * 64
                      + (b4 - 0x80) ∧
                    (((b - 0xF0) * 64 + (b2 - 0x80)) * 64 + (b3 - 0x80)) * 64
                      + (b4 - 0x80) < 0x110000 then
                  (some (Char.ofNat ((((b - 0xF0) * 64 + (b2 - 0x80)) * 64 + (b3 - 0x80)) * 64
                    + (b4 - 0x80))), t4)
                else (none, t)
              else (none, t3)
          else (none, t2)
      else (none, t)
  else (none, t)

/-- Fuelled UTF-8 decoding loop; invalid sequences are skipped. -/
def decodeAux : Nat → List Nat → List Char
  | 0, _ => []
  | _, [] => []
  | fuel + 1, b :: t =>
    match decodeOne b t with
    | (some c, rest) => c :: decodeAux fuel rest
    | (none, rest) => decodeAux fuel rest

/-- Python `bytes.decode("utf-8", errors="ignore")`: total, never raises,
drops invalid byte sequences. -/
def utf8DecodeIgnore (l : List Nat) : List Char := decodeAux l.length l

/-- Normalized track record (`{"artist": ..., "track": ...}`); equality is
structural, as Python dict equality is. -/
structure TrackInfo where
  artist : List Char
  track : List Char
deriving DecidableEq

def streamTitleKey : List Char := "StreamTitle=".toList

def dashSep : List Char := " - ".toList

def semiSep : List Char := ";".toList

def unknownArtist : List Char := "Unknown Artist".toList

def currentTrack : List Char := "Current Track".toList

/-- Lines 54-64 of `index.py`: split the extracted title on the first
`" - "` into artist and track, both stripped; without the separator the whole
stripped title is the track and the artist is the sentinel. -/
def splitTitle (title : List Char) : TrackInfo :=
  match splitFirst dashSep title with
  | some (a, b) => ⟨pyStrip a, pyStrip b⟩
  | none => ⟨unknownArtist, pyStrip title⟩

/-- Line 53 of `index.py`:
`metadata.split("StreamTitle=")[1].split(";")[0].strip("\x27")`. -/
def extractTitle (metadata : List Char) : List Char :=
  match pySplitSecond streamTitleKey metadata with
  | some seg => pyStripQuote (beforeFirst semiSep seg)
  | none => []

/-- Lines 51-64 of `index.py`: the per-block normalization.  Empty blocks and
blocks without the `StreamTitle=` key give `none` and the scan continues. -/
def parseTitle (metadata : List Char) : Option TrackInfo :=
  if metadata.isEmpty then none
  else if containsSub streamTitleKey metadata then some (splitTitle (extractTitle metadata))
  else none

/-- Result of one window read: either the 1-byte length prefix was missing
(end of stream) or a metadata block (possibly empty) was produced. -/
inductive WindowResult where
  | noLength : WindowResult
  | block : List Char → WindowResult
deriving DecidableEq

/-- Lines 45-50 of `index.py`: skip `metaint` audio bytes, read the length
byte, multiply by 16 and read and decode that many metadata bytes.  Returns
the window result and the remaining stream. -/
def readWindow (metaint : Nat) (s : List Nat) : WindowResult × List Nat :=
  match s.drop metaint with
  | [] => (.noLength, [])
  | b :: rest =>
    if b * 16 > 0 then
      (.block (utf8DecodeIgnore (rest.take (b * 16))), rest.drop (b * 16))
    else
      (.block [], rest)

/-- Lines 44-64 of `index.py`: the `for _ in range(10)` scan.  Each iteration
reads one window; a successfully normalized title returns immediately,
anything else continues with the remaining stream. -/
def fetchLoop (metaint : Nat) : Nat → List Nat → Option TrackInfo
  | 0, _ => none
  | n + 1, s =>
    match readWindow metaint s with
    | (.noLength, s1) => fetchLoop metaint n s1
    | (.block text, s1) =>
      match parseTitle text with
      | some t => some t
      | none => fetchLoop metaint n s1

/-- Number of windows the scan actually reads (same traversal as
`fetchLoop`). -/
def fetchLoopCount (metaint : Nat) : Nat → List Nat → Nat
  | 0, _ => 0
  | n + 1, s =>
    match readWindow metaint s with
    | (.noLength, s1) => 1 + fetchLoopCount metaint n s1
    | (.block text, s1) =>
      match parseTitle text with
      | some _ => 1
      | none => 1 + fetchLoopCount metaint n s1

/-- The response headers the function consults: a usable `icy-metaint` value
and the `icy-name` station header. -/
structure IcyHeaders where
  icyMetaint : Option Nat
  icyName : Option (List Char)

/-- Lines 66-73 of `index.py`: the station-name fallback. -/
def headerFallback (h : IcyHeaders) : Option TrackInfo :=
  match h.icyName with
  | some name => some ⟨name, currentTrack⟩
  | none => none

/-- Lines 42-73 of `index.py` (`fetch_metadata`): run the 10-window scan when
an interval is declared; fall through to the header fallback when the scan
finds nothing or no interval is declared. -/
def fetch_metadata (h : IcyHeaders) (s : List Nat) : Option TrackInfo :=
  match h.icyMetaint with
  | some metaint =>
    match fetchLoop metaint 10 s with
    | some t => some t
    | none => headerFallback h
  | none => headerFallback h

/-- The change-detector decision: `report` when a submission is attempted. -/
inductive Decision where
  | report : Decision
  | skip : Decision
deriving DecidableEq

/-- Line 138 of `index.py`: report iff a track was fetched and it differs
from the stored last track. -/
def observe (last : Option TrackInfo) (current : TrackInfo) : Decision :=
  if some current ≠ last then .report else .skip

/-- Lines 136-144 of `index.py`: one poll cycle of `run`.  `metadata` is the
fetch result, `submitOk` the submission collaborator outcome.  Returns the
decision taken and the new `last_track` slot. -/
def runCycle (last : Option TrackInfo) (metadata : Option TrackInfo)
    (submitOk : Bool) : Decision × Option TrackInfo :=
  match metadata with
  | none => (.skip, last)
  | some m =>
    if some m ≠ last then
      if submitOk then (.report, some m) else (.report, last)
    else (.skip, last)

/-! ### Lemmas about the Python string primitives -/

theorem leadsWith_iff (p : List Char) : ∀ l, leadsWith p l = true ↔ ∃ t, l = p ++ t := by
  induction p with
  | nil => intro l; simp [leadsWith]
  | cons a as ih =>
    intro l
    cases l with
    | nil => simp [leadsWith]
    | cons b bs =>
      simp only [leadsWith, Bool.and_eq_true, beq_iff_eq, ih, List.cons_append,
        List.cons.injEq]
      constructor
      · rintro ⟨rfl, t, rfl⟩; exact ⟨t, rfl, rfl⟩
      · rintro ⟨t, rfl, rfl⟩; exact ⟨rfl, t, rfl⟩

theorem splitFirst_sound (sep : List Char) :
    ∀ l a b, splitFirst sep l = some (a, b) → l = a ++ sep ++ b := by
  intro l
  induction l with
  | nil => intro a b h; simp [splitFirst] at h
  | cons x xs ih =>
    intro a b h
    rw [splitFirst] at h
    split at h
    · next hl =>
      obtain ⟨t, ht⟩ := (leadsWith_iff sep (x :: xs)).mp hl
      rw [ht, List.drop_left] at h
      cases h
      simpa using ht
    · next hl =>
      cases hsp : splitFirst sep xs with
      | none => rw [hsp] at h; cases h
      | some ab =>
        obtain ⟨a0, b0⟩ := ab
        rw [hsp] at h
        cases h
        have hx := ih a0 b hsp
        simp [hx]

theorem splitFirst_first (sep : List Char) :
    ∀ l a b, splitFirst sep l = some (a, b) →
      ∀ a2 b2, l = a2 ++ sep ++ b2 → a.length ≤ a2.length := by
  intro l
  induction l with
  | nil => intro a b h; simp [splitFirst] at h
  | cons x xs ih =>
    intro a b h a2 b2 hl
    rw [splitFirst] at h
    split at h
    · cases h; simp
    · next hnl =>
      cases a2 with
      | nil =>
        exact absurd ((leadsWith_iff sep (x :: xs)).mpr ⟨b2, by simpa using hl⟩) hnl
      | cons y a3 =>
        cases hsp : splitFirst sep xs with
        | none => rw [hsp] at h; cases h
        | some ab =>
          obtain ⟨a0, b0⟩ := ab
          rw [hsp] at h
          cases h
          simp only [List.cons_append, List.cons.injEq] at hl
          have := ih a0 b hsp a3 b2 hl.2
          simp only [List.length_cons]
          omega

theorem splitFirst_none (sep : List Char) (hsep : sep ≠ []) :
    ∀ l, splitFirst sep l = none → ∀ a b, l ≠ a ++ sep ++ b := by
  intro l
  induction l with
  | nil =>
    intro _ a b hl
    rw [eq_comm] at hl
    simp only [List.append_eq_nil] at hl
    exact hsep hl.1.2
  | cons x xs ih =>
    intro h a b hl
    rw [splitFirst] at h
    split at h
    · cases h
    · next hnl =>
      cases a with
      | nil => exact hnl ((leadsWith_iff sep (x :: xs)).mpr ⟨b, by simpa using hl⟩)
      | cons y a3 =>
        cases hsp : splitFirst sep xs with
        | some ab => rw [hsp] at h; cases h
        | none =>
          simp only [List.cons_append, List.cons.injEq] at hl
          exact ih hsp a3 b hl.2

theorem containsSub_iff (sep l : List Char) (hsep : sep ≠ []) :
    containsSub sep l = true ↔ ∃ a b, l = a ++ sep ++ b := by
  unfold containsSub
  cases hsp : splitFirst sep l with
  | none =>
    simp only [Option.isSome_none, Bool.false_eq_true, false_iff, not_exists]
    intro a b
    exact splitFirst_none sep hsep l hsp a b
  | some ab =>
    simp only [Option.isSome_some, true_iff]
    exact ⟨ab.1, ab.2, splitFirst_sound sep l ab.1 ab.2 (by rw [hsp])⟩

/-! ### Lemmas about the UTF-8 model -/

theorem decodeOne_rest_le (b : Nat) (t : List Nat) :
    (decodeOne b t).2.length ≤ t.length := by
  unfold decodeOne
  repeat' split
  all_goals simp_all
  all_goals omega

theorem decodeOne_ascii (b : Nat) (t : List Nat) (h : b < 0x80) :
    decodeOne b t = (some (Char.ofNat b), t) := by
  simp [decodeOne, h]

theorem decodeOne_two (b b2 : Nat) (t : List Nat) (h1 : 0xC2 ≤ b) (h2 : b < 0xE0)
    (hc : 0x80 ≤ b2 ∧ b2 < 0xC0) :
    decodeOne b (b2 :: t) = (some (Char.ofNat ((b - 0xC0) * 64 + (b2 - 0x80))), t) := by
  have n1 : ¬ b < 0x80 := by omega
  have n2 : ¬ b < 0xC2 := by omega
  have e4 : contByte b2 = true := by
    simp only [contByte, Bool.and_eq_true, decide_eq_true_eq]; omega
  simp [decodeOne, n1, n2, h2, e4]

theorem decodeOne_three (b b2 b3 : Nat) (t : List Nat) (h1 : 0xE0 ≤ b) (h2 : b < 0xF0)
    (hc2 : 0x80 ≤ b2 ∧ b2 < 0xC0) (hc3 : 0x80 ≤ b3 ∧ b3 < 0xC0)
    (hval : 0x800 ≤ ((b - 0xE0) * 64 + (b2 - 0x80)) * 64 + (b3 - 0x80) ∧
      (((b - 0xE0) * 64 + (b2 - 0x80)) * 64 + (b3 - 0x80) < 0xD800 ∨
        0xDFFF < ((b - 0xE0) * 64 + (b2 - 0x80)) * 64 + (b3 - 0x80))) :
    decodeOne b (b2 :: b3 :: t) =
      (some (Char.ofNat (((b - 0xE0) * 64 + (b2 - 0x80)) * 64 + (b3 - 0x80))), t) := by
  have n1 : ¬ b < 0x80 := by omega
  have n2 : ¬ b < 0xC2 := by omega
  have n3 : ¬ b < 0xE0 := by omega
  have e2 : contByte b2 = true := by
    simp only [contByte, Bool.and_eq_true, decide_eq_true_eq]; omega
  have e3 : contByte b3 = true := by
    simp only [contByte, Bool.and_eq_true, decide_eq_true_eq]; omega
  simp [decodeOne, n1, n2, n3, h2, e2, e3, hval]

theorem decodeOne_four (b b2 b3 b4 : Nat) (t : List Nat) (h1 : 0xF0 ≤ b) (h2 : b < 0xF5)
    (hc2 : 0x80 ≤ b2 ∧ b2 < 0xC0) (hc3 : 0x80 ≤ b3 ∧ b3 < 0xC0) (hc4 : 0x80 ≤ b4 ∧ b4 < 0xC0)
    (hval : 0x10000 ≤ (((b - 0xF0) * 64 + (b2 - 0x80)) * 64 + (b3 - 0x80)) * 64 + (b4 - 0x80) ∧
      (((b - 0xF0) * 64 + (b2 - 0x80)) * 64 + (b3 - 0x80)) * 64 + (b4 - 0x80) < 0x110000) :
    decodeOne b (b2 :: b3 :: b4 :: t) =
      (some (Char.ofNat ((((b - 0xF0) * 64 + (b2 - 0x80)) * 64 + (b3 - 0x80)) * 64
        + (b4 - 0x80))), t) := by
  have n1 : ¬ b < 0x80 := by omega
  have n2 : ¬ b < 0xC2 := by omega
  have n3 : ¬ b < 0xE0 := by omega
  have n4 : ¬ b < 0xF0 := by omega
  have e2 : contByte b2 = true := by
    simp only [contByte, Bool.and_eq_true, decide_eq_true_eq]; omega
  have e3 : contByte b3 = true := by
    simp only [contByte, Bool.and_eq_true, decide_eq_true_eq]; omega
  have e4 : contByte b4 = true := by
    simp only [contByte, Bool.and_eq_true, decide_eq_true_eq]; omega
  simp [decodeOne, n1, n2, n3, n4, h2, e2, e3, e4, hval]

theorem decodeAux_congr : ∀ (f1 f2 : Nat) (l : List Nat), l.length ≤ f1 → l.length ≤ f2 →
    decodeAux f1 l = decodeAux f2 l := by
  intro f1
  induction f1 with
  | zero =>
    intro f2 l h1 h2
    have hl : l = [] := List.length_eq_zero.mp (Nat.le_zero.mp h1)
    subst hl
    cases f2 <;> simp [decodeAux]
  | succ f ih =>
    intro f2 l h1 h2
    cases l with
    | nil => cases f2 <;> simp [decodeAux]
    | cons b t =>
      cases f2 with
      | zero => simp at h2
      | succ f2 =>
        have hle := decodeOne_rest_le b t
        simp only [List.length_cons, Nat.succ_le_succ_iff] at h1 h2
        rw [decodeAux, decodeAux]
        cases hd : decodeOne b t with
        | mk oc rest =>
          rw [hd] at hle
          simp only at hle
          cases oc with
          | none => exact ih f2 rest (le_trans hle h1) (le_trans hle h2)
          | some c =>
            simp only [List.cons.injEq, true_and]
            exact ih f2 rest (le_trans hle h1) (le_trans hle h2)

theorem utf8DecodeIgnore_cons (b : Nat) (t : List Nat) :
    utf8DecodeIgnore (b :: t) =
      match decodeOne b t with
      | (some c, rest) => c :: utf8DecodeIgnore rest
      | (none, rest) => utf8DecodeIgnore rest := by
  unfold utf8DecodeIgnore
  rw [List.length_cons, decodeAux]
  have hle := decodeOne_rest_le b t
  cases hd : decodeOne b t with
  | mk oc rest =>
    rw [hd] at hle
    simp only at hle
    cases oc with
    | none => exact decodeAux_congr t.length rest.length rest hle (le_refl _)
    | some c =>
      simp only [List.cons.injEq, true_and]
      exact decodeAux_congr t.length rest.length rest hle (le_refl _)

theorem char_toNat_valid (c : Char) :
    c.toNat < 0xD800 ∨ (0xDFFF < c.toNat ∧ c.toNat < 0x110000) := c.valid

theorem decode_encChar (c : Char) (rest : List Nat) :
    utf8DecodeIgnore (utf8EncodeChar c ++ rest) = c :: utf8DecodeIgnore rest := by
  have hv := char_toNat_valid c
  rcases Nat.lt_or_ge c.toNat 0x80 with h1 | h1
  · rw [utf8EncodeChar, if_pos h1]
    rw [List.cons_append, List.nil_append, utf8DecodeIgnore_cons,
      decodeOne_ascii c.toNat rest h1]
    rw [Char.ofNat_toNat]
  · rcases Nat.lt_or_ge c.toNat 0x800 with h2 | h2
    · rw [utf8EncodeChar, if_neg (by omega), if_pos h2]
      rw [List.cons_append, List.cons_append, List.nil_append, utf8DecodeIgnore_cons,
        decodeOne_two (0xC0 + c.toNat / 64) (0x80 + c.toNat % 64) rest
          (by omega) (by omega) (by omega)]
      have hvv : (0xC0 + c.toNat / 64 - 0xC0) * 64 + (0x80 + c.toNat % 64 - 0x80)
          = c.toNat := by omega
      rw [hvv, Char.ofNat_toNat]
    · rcases Nat.lt_or_ge c.toNat 0x10000 with h3 | h3
      · rw [utf8EncodeChar, if_neg (by omega), if_neg (by omega), if_pos h3]
        have hvv : (0xE0 + c.toNat / 4096 - 0xE0) * 64 + (0x80 + c.toNat / 64 % 64 - 0x80)
            = c.toNat / 64 := by omega
        rw [List.cons_append, List.cons_append, List.cons_append, List.nil_append,
          utf8DecodeIgnore_cons,
          decodeOne_three (0xE0 + c.toNat / 4096) (0x80 + c.toNat / 64 % 64)
            (0x80 + c.toNat % 64) rest (by omega) (by omega) (by omega) (by omega)
            (by rw [hvv]; omega)]
        rw [hvv]
        have hvv2 : c.toNat / 64 * 64 + (0x80 + c.toNat % 64 - 0x80) = c.toNat := by omega
        rw [hvv2, Char.ofNat_toNat]
      · rw [utf8EncodeChar, if_neg (by omega), if_neg (by omega), if_neg (by omega)]
        have hup : c.toNat < 0x110000 := by omega
        have hvv : (0xF0 + c.toNat / 262144 - 0xF0) * 64
            + (0x80 + c.toNat / 4096 % 64 - 0x80) = c.toNat / 4096 := by omega
        have hvv2 : c.toNat / 4096 * 64 + (0x80 + c.toNat / 64 % 64 - 0x80)
            = c.toNat / 64 := by omega
        have hvv3 : c.toNat / 64 * 64 + (0x80 + c.toNat % 64 - 0x80) = c.toNat := by omega
        rw [List.cons_append, List.cons_append, List.cons_append, List.cons_append,
          List.nil_append, utf8DecodeIgnore_cons,
          decodeOne_four (0xF0 + c.toNat / 262144) (0x80 + c.toNat / 4096 % 64)
            (0x80 + c.toNat / 64 % 64) (0x80 + c.toNat % 64) rest (by omega) (by omega)
            (by omega) (by omega) (by omega)
            (by rw [hvv, hvv2, hvv3]; omega)]
        rw [hvv, hvv2, hvv3, Char.ofNat_toNat]

theorem utf8_decode_encode : ∀ s : List Char, utf8DecodeIgnore (utf8Encode s) = s := by
  intro s
  induction s with
  | nil => simp [utf8Encode, utf8DecodeIgnore, decodeAux]
  | cons c cs ih => rw [utf8Encode, decode_encChar, ih]

theorem utf8DecodeIgnore_ascii : ∀ l : List Nat, (∀ x ∈ l, x < 0x80) →
    utf8DecodeIgnore l = l.map Char.ofNat := by
  intro l
  induction l with
  | nil => simp [utf8DecodeIgnore, decodeAux]
  | cons b t ih =>
    intro h
    rw [utf8DecodeIgnore_cons, decodeOne_ascii b t (h b (by simp))]
    simp only [List.map_cons, List.cons.injEq, true_and]
    exact ih (fun x hx => h x (by simp [hx]))

/-! ### Lemmas about the scan loop -/

theorem fetchLoopCount_le (metaint : Nat) : ∀ n s, fetchLoopCount metaint n s ≤ n := by
  intro n
  induction n with
  | zero => intro s; simp [fetchLoopCount]
  | succ k ih =>
    intro s
    rw [fetchLoopCount]
    rcases hw : readWindow metaint s with ⟨wr, s1⟩
    cases wr with
    | noLength =>
      have := ih s1
      simp only
      omega
    | block text =>
      cases hp : parseTitle text with
      | some t => simp only [hp]; omega
      | none =>
        have := ih s1
        simp only [hp]
        omega

/-! ### The claims -/

/-- Claim C1: for every valid triple of interval, length byte `L` with
`0 < L ≤ 255` and metadata bytes (the UTF-8 encoding of a text `s`, of
exactly `L * 16` bytes, containing a `StreamTitle` field), running the frame
decoder on a synthetic stream of exactly `interval` filler bytes, then the
length byte, then the metadata bytes, yields exactly that metadata text `s`
unchanged. -/
theorem decoder_roundtrip (interval L : Nat) (filler : List Nat) (s : List Char)
    (hf : filler.length = interval) (hL1 : 0 < L) (hL2 : L ≤ 255)
    (hlen : (utf8Encode s).length = L * 16)
    (_hkey : containsSub streamTitleKey s = true) :
    readWindow interval (filler ++ L :: utf8Encode s) = (.block s, []) := by
  unfold readWindow
  rw [List.drop_left' hf]
  simp only
  rw [if_pos (by omega : L * 16 > 0)]
  rw [← hlen, List.take_length, List.drop_length, utf8_decode_encode]

theorem decoder_roundtrip_witness :
    (utf8Encode "StreamTitle='A';".toList).length = 1 * 16 ∧
    containsSub streamTitleKey "StreamTitle='A';".toList = true ∧
    readWindow 2 ([0, 0] ++ 1 :: utf8Encode "StreamTitle='A';".toList)
      = (.block "StreamTitle='A';".toList, []) :=
  ⟨by decide, by decide,
    decoder_roundtrip 2 1 [0, 0] "StreamTitle='A';".toList rfl (by decide) (by decide)
      (by decide) (by decide)⟩

/-- Claim C2 counterexample: the stream ends mid-frame (only 26 of the
declared `2 * 16 = 32` metadata bytes are present), yet the decoder does not
surface any error: it decodes the truncated bytes and `fetch_metadata`
silently returns the truncated track `Trac`. -/
theorem short_read_counterexample :
    ("StreamTitle='Artist - Trac".toList.map Char.toNat).length < 2 * 16 ∧
    fetch_metadata ⟨some 0, none⟩
        (2 :: "StreamTitle='Artist - Trac".toList.map Char.toNat)
      = some ⟨"Artist".toList, "Trac".toList⟩ := by
  constructor
  · decide
  · decide

/-- Claim C2 amended: a short read is not detected.  When fewer than
`L * 16` bytes remain after the length byte, the decoder decodes whatever
bytes are available and returns them as a (possibly truncated) block; when
the stream ends during the audio skip or at the length byte, the window
yields `noLength` and the scan silently continues.  No `StreamEnded` error
is ever surfaced. -/
theorem short_read_behavior (metaint b : Nat) (filler mb : List Nat)
    (hf : filler.length = metaint) (hb : 0 < b) (hs : mb.length < b * 16) :
    readWindow metaint (filler ++ b :: mb) = (.block (utf8DecodeIgnore mb), []) ∧
    (∀ s : List Nat, s.length ≤ metaint → readWindow metaint s = (.noLength, [])) := by
  constructor
  · unfold readWindow
    rw [List.drop_left' hf]
    simp only
    rw [if_pos (by omega : b * 16 > 0)]
    rw [List.take_of_length_le (by omega), List.drop_eq_nil_of_le (by omega)]
  · intro s hsle
    unfold readWindow
    rw [List.drop_eq_nil_of_le hsle]

theorem short_read_behavior_witness :
    ([300, 301] : List Nat).length = 2 ∧ ([65, 66, 67] : List Nat).length < 1 * 16 ∧
    readWindow 2 ([300, 301] ++ 1 :: [65, 66, 67])
      = (.block (utf8DecodeIgnore [65, 66, 67]), []) :=
  ⟨rfl, by decide,
    (short_read_behavior 2 1 [300, 301] [65, 66, 67] rfl (by decide) (by decide)).1⟩

/-- Claim C3: for every extracted title, if the title contains the literal
separator `" - "` then `splitTitle` splits it at the first occurrence into
artist and track with surrounding whitespace stripped from each half
(firstness is expressed by minimality of the length of the left part over
all decompositions); if the separator is absent the result is the sentinel
`Unknown Artist` together with the whole stripped title as track. -/
theorem title_split (title : List Char) :
    (containsSub dashSep title = true ↔ ∃ a b, title = a ++ dashSep ++ b) ∧
    (∀ a b, splitFirst dashSep title = some (a, b) →
      splitTitle title = ⟨pyStrip a, pyStrip b⟩ ∧ title = a ++ dashSep ++ b ∧
        ∀ a2 b2, title = a2 ++ dashSep ++ b2 → a.length ≤ a2.length) ∧
    ((∀ a b, title ≠ a ++ dashSep ++ b) →
      splitTitle title = ⟨unknownArtist, pyStrip title⟩) := by
  refine ⟨containsSub_iff dashSep title (by decide), ?_, ?_⟩
  · intro a b h
    refine ⟨?_, splitFirst_sound _ _ _ _ h, splitFirst_first _ _ _ _ h⟩
    unfold splitTitle
    rw [h]
  · intro hno
    unfold splitTitle
    cases hsp : splitFirst dashSep title with
    | none => rfl
    | some ab =>
      exact absurd (splitFirst_sound _ _ ab.1 ab.2 (by rw [hsp]))
        (hno ab.1 ab.2)

theorem title_split_witness :
    splitTitle "Artist X - Song Y".toList = ⟨"Artist X".toList, "Song Y".toList⟩ ∧
    splitTitle "Just A Title".toList = ⟨unknownArtist, "Just A Title".toList⟩ :=
  ⟨((title_split "Artist X - Song Y".toList).2.1 "Artist X".toList "Song Y".toList
      (by decide)).1.trans (by decide),
   ((title_split "Just A Title".toList).2.2 (fun a b hab =>
      absurd ((title_split "Just A Title".toList).1.mpr ⟨a, b, hab⟩)
        (by decide))).trans (by decide)⟩

/-- Claim C4: in a poll cycle where a new track is detected, the last-track
slot is updated to the current track if and only if the submission succeeds;
on failure it is unchanged, so feeding the same track twice with a failed
first submission yields `report` then `report` again. -/
theorem lastTrack_transactional (last : Option TrackInfo) (m : TrackInfo)
    (hnew : some m ≠ last) :
    (∀ ok, (runCycle last (some m) ok).2 = if ok then some m else last) ∧
    (runCycle last (some m) false).1 = .report ∧
    (runCycle (runCycle last (some m) false).2 (some m) true).1 = .report := by
  refine ⟨?_, ?_, ?_⟩
  · intro ok
    cases ok <;> simp [runCycle, hnew]
  · simp [runCycle, hnew]
  · simp [runCycle, hnew]

theorem lastTrack_transactional_witness :
    (runCycle none (some ⟨"a".toList, "b".toList⟩) false).1 = .report ∧
    (runCycle (runCycle none (some ⟨"a".toList, "b".toList⟩) false).2
      (some ⟨"a".toList, "b".toList⟩) true).1 = .report :=
  ⟨(lastTrack_transactional none ⟨"a".toList, "b".toList⟩ (by decide)).2.1,
   (lastTrack_transactional none ⟨"a".toList, "b".toList⟩ (by decide)).2.2⟩

/-- Claim C5: the change detector reports if and only if the current track is
structurally different from the stored last track or the slot is unset;
track equality is structural (both fields), and observing the same track
twice with a successful first submission yields `report` then `skip`. -/
theorem change_detector (last : Option TrackInfo) (m : TrackInfo) (ok : Bool) :
    ((runCycle last (some m) ok).1 = .report ↔
      (last = none ∨ ∃ t, last = some t ∧ t ≠ m)) ∧
    ((runCycle last (some m) ok).1 = observe last m) ∧
    (∀ x y : TrackInfo, x = y ↔ x.artist = y.artist ∧ x.track = y.track) ∧
    ((runCycle last (some m) true).2 = some m) ∧
    (∀ ok2, (runCycle (some m) (some m) ok2).1 = .skip) := by
  refine ⟨?_, ?_, ?_, ?_, ?_⟩
  · cases last with
    | none => cases ok <;> simp [runCycle]
    | some t =>
      by_cases h : t = m
      · subst h; simp [runCycle]
      · have h2 : ¬ m = t := fun hh => h hh.symm
        cases ok <;> simp [runCycle, h, h2]
  · cases last with
    | none => cases ok <;> simp [runCycle, observe]
    | some t =>
      by_cases h : t = m
      · subst h; simp [runCycle, observe]
      · have h2 : ¬ m = t := fun hh => h hh.symm
        cases ok <;> simp [runCycle, observe, h2]
  · intro x y
    cases x; cases y; simp
  · by_cases h : some m ≠ last
    · simp [runCycle, h]
    · rw [not_not] at h
      simp [runCycle, ← h]
  · intro ok2
    simp [runCycle]

theorem change_detector_witness :
    ((runCycle none (some ⟨"a".toList, "b".toList⟩) true).1 = .report ↔
      ((none : Option TrackInfo) = none ∨
        ∃ t, (none : Option TrackInfo) = some t ∧ t ≠ ⟨"a".toList, "b".toList⟩)) ∧
    (runCycle (runCycle none (some ⟨"a".toList, "b".toList⟩) true).2
      (some ⟨"a".toList, "b".toList⟩) true).1 = .skip :=
  ⟨(change_detector none ⟨"a".toList, "b".toList⟩ true).1,
   by
    rw [(change_detector none ⟨"a".toList, "b".toList⟩ true).2.2.2.1]
    exact (change_detector none ⟨"a".toList, "b".toList⟩ true).2.2.2.2 true⟩

/-- Claim C6: a non-empty decoded metadata block that does not contain the
literal key `StreamTitle=` normalizes to `none` (a silent malformed-metadata
outcome, not a track and not a raised fault — the function is total). -/
theorem malformed_metadata (block : List Char) (hne : block ≠ [])
    (hno : ∀ a b, block ≠ a ++ streamTitleKey ++ b) :
    parseTitle block = none := by
  have hkey : ¬ containsSub streamTitleKey block = true := by
    rw [containsSub_iff _ _ (by decide)]
    rintro ⟨a, b, hab⟩
    exact hno a b hab
  simp [parseTitle, hne, hkey]

theorem malformed_metadata_witness :
    "hello".toList ≠ [] ∧ parseTitle "hello".toList = none :=
  ⟨by decide,
   malformed_metadata "hello".toList (by decide) (fun a b hab =>
     absurd ((containsSub_iff streamTitleKey "hello".toList (by decide)).mpr
       ⟨a, b, hab⟩) (by decide))⟩

/-- Claim C7 counterexample: a session with a declared interval
(`icy-metaint` of 0) and an `icy-name` header still yields the degraded
fallback `(station name, Current Track)` when the 10-window scan finds no
title, so the fallback is not exclusive to sessions without an interval. -/
theorem fallback_counterexample :
    fetch_metadata ⟨some 0, some "St".toList⟩ []
      = some ⟨"St".toList, currentTrack⟩ := by
  decide

/-- Claim C7 amended: the degraded fallback `(station name, Current Track)`
is produced whenever an `icy-name` header exists and either no usable
interval is declared or the 10-window scan of the declared-interval stream
finds no `StreamTitle`; a session with a declared interval whose scan
succeeds returns the scanned track instead. -/
theorem fallback_behavior (h : IcyHeaders) (s : List Nat) (name : List Char)
    (hn : h.icyName = some name) :
    (h.icyMetaint = none → fetch_metadata h s = some ⟨name, currentTrack⟩) ∧
    (∀ mi, h.icyMetaint = some mi → fetchLoop mi 10 s = none →
      fetch_metadata h s = some ⟨name, currentTrack⟩) ∧
    (∀ mi t, h.icyMetaint = some mi → fetchLoop mi 10 s = some t →
      fetch_metadata h s = some t) := by
  refine ⟨?_, ?_, ?_⟩
  · intro hm
    simp [fetch_metadata, headerFallback, hm, hn]
  · intro mi hm hl
    simp [fetch_metadata, headerFallback, hm, hn, hl]
  · intro mi t hm hl
    simp [fetch_metadata, hm, hl]

theorem fallback_behavior_witness :
    fetchLoop 0 10 ([] : List Nat) = none ∧
    fetch_metadata ⟨some 0, some "Radio".toList⟩ []
      = some ⟨"Radio".toList, currentTrack⟩ :=
  ⟨by decide,
   (fallback_behavior ⟨some 0, some "Radio".toList⟩ [] "Radio".toList rfl).2.1 0 rfl
     (by decide)⟩

/-- Claim C8: a length-prefix byte of 0 yields an empty metadata block and
never an error; the empty block does not normalize to a track, and the scan
simply continues with the rest of the stream, so it is never treated as a
track change. -/
theorem zero_length_block (metaint n : Nat) (filler rest : List Nat)
    (hf : filler.length = metaint) :
    readWindow metaint (filler ++ 0 :: rest) = (.block [], rest) ∧
    parseTitle [] = none ∧
    fetchLoop metaint (n + 1) (filler ++ 0 :: rest) = fetchLoop metaint n rest := by
  have h1 : readWindow metaint (filler ++ 0 :: rest) = (.block [], rest) := by
    unfold readWindow
    rw [List.drop_left' hf]
    simp
  refine ⟨h1, rfl, ?_⟩
  rw [fetchLoop, h1]
  rfl

theorem zero_length_block_witness :
    readWindow 2 ([7, 8] ++ 0 :: [9, 10]) = (.block [], [9, 10]) ∧
    fetchLoop 2 3 ([7, 8] ++ 0 :: [9, 10]) = fetchLoop 2 2 [9, 10] :=
  ⟨(zero_length_block 2 2 [7, 8] [9, 10] rfl).1,
   (zero_length_block 2 2 [7, 8] [9, 10] rfl).2.2⟩

/-- Claim C9 counterexample: the decoding of metadata bytes is done with
`errors="ignore"`, not `errors="replace"`: the invalid byte `0xFF` between
two ASCII bytes is dropped from the result rather than replaced by the
replacement character `U+FFFD`, so the result has only two characters. -/
theorem lossy_decode_counterexample :
    utf8DecodeIgnore [65, 255, 66] = [Char.ofNat 65, Char.ofNat 66] ∧
    utf8DecodeIgnore [65, 255, 66]
      ≠ [Char.ofNat 65, Char.ofNat 0xFFFD, Char.ofNat 66] ∧
    (utf8DecodeIgnore [65, 255, 66]).length < [65, 255, 66].length := by
  refine ⟨by decide, by decide, by decide⟩

/-- Claim C9 amended: metadata text decoding is permissive and total — it
never fails on invalid bytes — but invalid byte sequences are dropped
(ignored), not replaced: an invalid `0xFF` byte between ASCII runs
disappears from the decoded text and decoding continues. -/
theorem lossy_decode_drops (pre post : List Nat)
    (hpre : ∀ x ∈ pre, x < 0x80) (hpost : ∀ x ∈ post, x < 0x80) :
    utf8DecodeIgnore (pre ++ 0xFF :: post)
      = pre.map Char.ofNat ++ post.map Char.ofNat := by
  induction pre with
  | nil =>
    simp only [List.nil_append, List.map_nil]
    rw [utf8DecodeIgnore_cons]
    have hff : decodeOne 0xFF post = (none, post) := by simp [decodeOne]
    rw [hff]
    exact utf8DecodeIgnore_ascii post hpost
  | cons b t ih =>
    simp only [List.cons_append, List.map_cons]
    rw [utf8DecodeIgnore_cons, decodeOne_ascii b _ (hpre b (by simp))]
    simp only [List.cons_append, List.cons.injEq, true_and]
    exact ih (fun x hx => hpre x (by simp [hx]))

theorem lossy_decode_drops_witness :
    utf8DecodeIgnore ([72, 105] ++ 0xFF :: [33])
      = [72, 105].map Char.ofNat ++ [33].map Char.ofNat :=
  lossy_decode_drops [72, 105] [33] (by decide) (by decide)

/-- Claim C10: on a session with a declared interval, one `fetch_metadata`
call reads at most 10 metadata windows before giving up, and when the whole
scan finds nothing the call falls through to the header-based fallback; the
scan always terminates (it is a total function of the stream). -/
theorem scan_bounded (metaint : Nat) (s : List Nat) (nm : Option (List Char)) :
    fetchLoopCount metaint 10 s ≤ 10 ∧
    (fetchLoop metaint 10 s = none →
      fetch_metadata ⟨some metaint, nm⟩ s = headerFallback ⟨some metaint, nm⟩) := by
  constructor
  · exact fetchLoopCount_le metaint 10 s
  · intro hnone
    simp [fetch_metadata, hnone]

theorem scan_bounded_witness :
    fetchLoopCount 5 10 [1, 2, 3] ≤ 10 ∧
    fetch_metadata ⟨some 5, none⟩ [1, 2, 3] = headerFallback ⟨some 5, none⟩ :=
  ⟨(scan_bounded 5 [1, 2, 3] none).1, (scan_bounded 5 [1, 2, 3] none).2 (by decide)⟩

end WebRadio
